import Mathlib

/-!
Verification of the date-range parsing/resolution core and the hourly-series
compaction core of the openmeteo CLI.

The repository contains two parallel implementations of the core:
* `src/main.rs` (module `time`, plus `Forecast::compress` in
  `src/openmeteo_fetch.rs`, weather codes as `i32`), and
* `src/bin/openmeteo.rs` (module `time`, plus `Forecast::compact` in
  `src/data.rs`, weather codes as `WmoCode(u8)`).

Modelling conventions (shallow embedding):
* Strings are `List Char`; `str::to_lowercase` is modelled on ASCII.
* `NaiveDate` is `Int`, the number of days since 1970-01-01 (a Thursday);
  `chrono`'s `weekday().num_days_from_monday()` becomes `(d + 3) % 7`.
* A timezone-attached instant is modelled by its wall-clock reading in the
  target timezone, `LocalTime` = (day number, seconds of day).  For a fixed
  offset the conversion from wall clock to absolute time is strictly
  monotone, so order comparisons and `max` on wall-clock values are faithful;
  DST transitions are not modelled.
* Hourly timestamps of the forecast axis are `Nat` hours since the epoch in
  the forecast's timezone: the calendar date is `t / 24`, the hour of day is
  `t % 24`.
* `f64` temperature/precipitation values are modelled as `ℚ` (the relevant
  claims concern only absence propagation and structural aggregation, not
  rounding).
* A multi-model forecast shares one timestamp axis; each model's series is
  modelled as the axis zipped with that model's samples,
  `List (Nat × WPoint _)`, mirroring the source's parallel arrays.
-/

/-- ASCII model of `str::to_lowercase` (per character). -/
def lowerAscii (c : Char) : Char :=
  if 'A' ≤ c ∧ c ≤ 'Z' then Char.ofNat (c.toNat + 32) else c

/-- ASCII digit test. -/
def isDigitCh (c : Char) : Bool := decide ('0' ≤ c ∧ c ≤ '9')

/-- Numeric value of a digit string (most significant first). -/
def digitsVal (l : List Char) : Nat :=
  l.foldl (fun a c => 10 * a + (c.toNat - 48)) 0

/-- Split a string into its maximal leading run of ASCII digits and the rest
(the year field of chrono's `%Y-%m-%d` parser reads digits greedily). -/
def takeDigits : List Char → List Char × List Char
  | [] => ([], [])
  | c :: rest =>
    if isDigitCh c then
      let p := takeDigits rest
      (c :: p.1, p.2)
    else ([], c :: rest)

/-- Read one or two ASCII digits greedily, returning their value and the rest
of the input (chrono's parser for the `%m` and `%d` fields). -/
def read2Digits : List Char → Option (Nat × List Char)
  | [] => none
  | [c] => if isDigitCh c then some (c.toNat - 48, []) else none
  | c1 :: c2 :: rest =>
    if isDigitCh c1 then
      if isDigitCh c2 then some (10 * (c1.toNat - 48) + (c2.toNat - 48), rest)
      else some (c1.toNat - 48, c2 :: rest)
    else none

/-- Proleptic-Gregorian leap-year rule used by `chrono`. -/
def isLeapYear (y : Int) : Bool :=
  decide (y % 4 = 0 ∧ (y % 100 ≠ 0 ∨ y % 400 = 0))

/-- Number of days in month `m` of year `y`. -/
def daysInMonth (y : Int) (m : Nat) : Int :=
  if m = 2 then (if isLeapYear y then 29 else 28)
  else if m = 4 ∨ m = 6 ∨ m = 9 ∨ m = 11 then 30
  else 31

/-- Day number (days since 1970-01-01) of the civil date `y-m-d`
(standard days-from-civil computation over the proleptic Gregorian
calendar, the calendar `chrono::NaiveDate` implements). -/
def daysFromCivil (y : Int) (m d : Nat) : Int :=
  let y' : Int := if (m : Int) ≤ 2 then y - 1 else y
  let era : Int := (if 0 ≤ y' then y' else y' - 399) / 400
  let yoe : Int := y' - era * 400
  let mp : Int := ((m : Int) + 9) % 12
  let doy : Int := (153 * mp + 2) / 5 + (d : Int) - 1
  let doe : Int := yoe * 365 + yoe / 4 - yoe / 100 + doy
  era * 146097 + doe - 719468

/-- Body of the model of `NaiveDate::parse_from_str(s, "%Y-%m-%d")` after
the year's optional sign: a greedy nonempty run of digits for the year, a
literal `-`, one or two digits for the month, a literal `-`, one or two
digits for the day, end of input, then calendar validation.  Returns the
day number of the parsed date. -/
def parseYmdBody (sign : Int) (t : List Char) : Option Int :=
  match takeDigits t with
  | ([], _) => none
  | (yds, s2) =>
    match s2 with
    | '-' :: s3 =>
      match read2Digits s3 with
      | none => none
      | some (m, s4) =>
        match s4 with
        | '-' :: s5 =>
          match read2Digits s5 with
          | none => none
          | some (d, s6) =>
            if s6 = [] then
              let y := sign * (digitsVal yds : Int)
              if 1 ≤ m ∧ m ≤ 12 ∧ 1 ≤ d ∧ (d : Int) ≤ daysInMonth y m then
                some (daysFromCivil y m d)
              else none
            else none
        | _ => none
    | _ => none

/-- Model of `NaiveDate::parse_from_str(s, "%Y-%m-%d")`: the `%Y` field
accepts an optional leading `+` or `-` sign before the year digits, then
`parseYmdBody` reads the three dash-separated numeric fields. -/
def parseYmd (s : List Char) : Option Int :=
  match s with
  | c :: rest =>
    if c = '-' then parseYmdBody (-1) rest
    else if c = '+' then parseYmdBody 1 rest
    else parseYmdBody 1 s
  | [] => parseYmdBody 1 []

/-- `chrono::Weekday`. -/
inductive Weekday where
  | mon | tue | wed | thu | fri | sat | sun
deriving DecidableEq

/-- `num_days_from_monday` of a weekday, as an integer. -/
def Weekday.num : Weekday → Int
  | .mon => 0
  | .tue => 1
  | .wed => 2
  | .thu => 3
  | .fri => 4
  | .sat => 5
  | .sun => 6

/-- `RequestedDate` from both `time` modules (the five-variant
`DateSpecifier` of the spec).  `Absolute` carries a day number. -/
inductive RequestedDate where
  | today
  | tomorrow
  | relativeDays (n : Nat)
  | weekday (w : Weekday)
  | absolute (d : Int)
deriving DecidableEq

/-- The two parse-time error shapes: the distinct "empty range '..' not
allowed" failure of `parse_date_range` in `src/bin/openmeteo.rs`, and the
"dates must be YYYY-MM-DD, +N, weekday name, 'today' or 'tomorrow'"
failure of `parse_date`. -/
inductive Err where
  | emptyRange
  | malformedToken
deriving DecidableEq

/-- `parse_weekday` (identical in both `time` modules). -/
def parse_weekday (s : List Char) : Option Weekday :=
  if s = "mon".toList ∨ s = "monday".toList then some .mon
  else if s = "tue".toList ∨ s = "tuesday".toList then some .tue
  else if s = "wed".toList ∨ s = "wednesday".toList then some .wed
  else if s = "thu".toList ∨ s = "thursday".toList then some .thu
  else if s = "fri".toList ∨ s = "friday".toList then some .fri
  else if s = "sat".toList ∨ s = "saturday".toList then some .sat
  else if s = "sun".toList ∨ s = "sunday".toList then some .sun
  else none

/-- Model of Rust's `str::parse::<u8>()`: an optional leading `+` sign
followed by a nonempty run of ASCII digits whose value fits in `0..=255`.
(Checking the final value against 255 is equivalent to Rust's per-step
overflow check, since the value of a digit-string prefix never exceeds the
value of the whole string.) -/
def parseU8 (s : List Char) : Option Nat :=
  let digits :=
    match s with
    | c :: rest => if c = '+' then rest else s
    | [] => []
  if digits = [] then none
  else if digits.all isDigitCh then
    if digitsVal digits ≤ 255 then some (digitsVal digits) else none
  else none

/-- `s.strip_prefix('+')`. -/
def stripPlus : List Char → Option (List Char)
  | [] => none
  | c :: rest => if c = '+' then some rest else none

/-- `parse_date` (identical in both `time` modules): lowercase, then try the
literals `today`/`tomorrow`, a weekday name, `+N`, and finally a
`YYYY-MM-DD` date. -/
def parse_date (s : List Char) : Except Err RequestedDate :=
  let t := s.map lowerAscii
  if t = "today".toList then .ok .today
  else if t = "tomorrow".toList then .ok .tomorrow
  else
    match parse_weekday t with
    | some w => .ok (.weekday w)
    | none =>
      match (stripPlus t).bind parseU8 with
      | some days => .ok (.relativeDays days)
      | none =>
        match parseYmd t with
        | some d => .ok (.absolute d)
        | none => .error .malformedToken

/-- Maximum forecast days supported by Open-Meteo (`MAX_FORECAST_DAYS`). -/
def MAX_FORECAST_DAYS : Nat := 16

/-- `parse_date_or` from `src/bin/openmeteo.rs`: parse, or return the given
default if the string is empty. -/
def parse_date_or (s : List Char) (dflt : RequestedDate) : Except Err RequestedDate :=
  if s = [] then .ok dflt else parse_date s

/-- Model of `str::split_once("..")`: split at the first occurrence of the
two-character separator, or `none` if it does not occur. -/
def splitOnce : List Char → Option (List Char × List Char)
  | [] => none
  | c :: rest =>
    if c = '.' ∧ rest.head? = some '.' then some ([], rest.tail)
    else (splitOnce rest).map (fun p => (c :: p.1, p.2))

namespace Bin

/-- `parse_date_range` from `src/bin/openmeteo.rs`: side-specific defaults
for empty sides (`Today` on the left, `RelativeDays(MAX_FORECAST_DAYS)` on
the right), a bare `..` is a distinct error, and a separator-free string is
the single-date range. -/
def parse_date_range (s : List Char) : Except Err (RequestedDate × RequestedDate) :=
  match splitOnce s with
  | some ([], []) => .error .emptyRange
  | some (left, right) => do
    let a ← parse_date_or left .today
    let b ← parse_date_or right (.relativeDays MAX_FORECAST_DAYS)
    pure (a, b)
  | none => do
    let d ← parse_date s
    pure (d, d)

end Bin

namespace Main

/-- `parse_date_range` from `src/main.rs`: both sides of a `..` range are
parsed with `parse_date` directly — there are no empty-side defaults. -/
def parse_date_range (s : List Char) : Except Err (RequestedDate × RequestedDate) :=
  match splitOnce s with
  | some (left, right) => do
    let a ← parse_date left
    let b ← parse_date right
    pure (a, b)
  | none => do
    let d ← parse_date s
    pure (d, d)

end Main

/-- `num_days_from_monday` of the weekday of day number `d`
(1970-01-01, day 0, was a Thursday, hence the offset 3). -/
def weekdayOf (d : Int) : Int := (d + 3) % 7

/-- Bounds on `Weekday.num`. -/
theorem Weekday.num_bounds (w : Weekday) : 0 ≤ w.num ∧ w.num < 7 := by
  cases w <;> exact ⟨by decide, by decide⟩

/-- The weekday search loop of `resolve_date`: step forward one day at a
time until the weekday matches.  Terminates because the distance (mod 7)
to the wanted weekday strictly decreases. -/
def searchWeekday (w : Weekday) (date : Int) : Int :=
  if weekdayOf date = w.num then date
  else searchWeekday w (date + 1)
termination_by ((w.num - date - 3) % 7).toNat
decreasing_by
  simp only [weekdayOf] at *
  have hw := w.num_bounds
  omega

/-- `resolve_date` (identical in both `time` modules). -/
def resolveDate (dt : RequestedDate) (relative_to weekday_start_at : Int) : Int :=
  match dt with
  | .today => relative_to
  | .tomorrow => relative_to + 1
  | .relativeDays n => relative_to + (n : Int)
  | .weekday wanted => searchWeekday wanted weekday_start_at
  | .absolute d => d

/-- A timezone-attached instant, represented by its wall-clock reading in
the target timezone: day number and seconds of day. -/
structure LocalTime where
  date : Int
  secs : Int
deriving DecidableEq

/-- `a` is strictly earlier than `b` in absolute time (for instants carrying
the same fixed offset, wall-clock order is absolute-time order). -/
def LocalTime.before (a b : LocalTime) : Prop :=
  a.date < b.date ∨ (a.date = b.date ∧ a.secs < b.secs)

instance : DecidablePred fun p : LocalTime × LocalTime => p.1.before p.2 :=
  fun _ => by unfold LocalTime.before; infer_instance

/-- `std::cmp::max` on instants (returns the second argument when equal). -/
def lmax (a b : LocalTime) : LocalTime :=
  if a.date < b.date ∨ (a.date = b.date ∧ a.secs ≤ b.secs) then b else a

/-- `CUTOFF_TIME` = 22:55:00, as seconds of day. -/
def CUTOFF_TIME : Int := 82500

namespace Bin

/-- `resolve_time_range` from `src/bin/openmeteo.rs`.  After the 22:55
cutoff only the *end* specifier is shifted from `Today` to `Tomorrow`; the
start is resolved unshifted and then clamped to `now`.  Resolution produces
midnight of the resolved start date (clamped to `now`) and midnight one day
past the resolved end date; the end specifier's weekday search starts at the
resolved start date. -/
def resolve_time_range (r : RequestedDate × RequestedDate) (now : LocalTime) :
    LocalTime × LocalTime :=
  let today := now.date
  let end_date := if CUTOFF_TIME < now.secs ∧ r.2 = .today then .tomorrow else r.2
  let start_resolved := resolveDate r.1 today today
  let end_resolved := resolveDate end_date today start_resolved
  (lmax ⟨start_resolved, 0⟩ now, ⟨end_resolved + 1, 0⟩)

end Bin

namespace Main

/-- `resolve_time_range` from `src/main.rs`.  After the 22:55 cutoff a
`Today` specifier on *either* side is shifted to `Tomorrow`; otherwise as in
`Bin.resolve_time_range`. -/
def resolve_time_range (r : RequestedDate × RequestedDate) (now : LocalTime) :
    LocalTime × LocalTime :=
  let original_date := now.date
  let start_date := if CUTOFF_TIME < now.secs ∧ r.1 = .today then .tomorrow else r.1
  let end_date := if CUTOFF_TIME < now.secs ∧ r.2 = .today then .tomorrow else r.2
  let start_resolved := resolveDate start_date original_date original_date
  let end_resolved := resolveDate end_date original_date start_resolved
  (lmax ⟨start_resolved, 0⟩ now, ⟨end_resolved + 1, 0⟩)

end Main

/-- The §4.4 resolution algorithm with the cutoff adjustment removed
(specifiers resolved exactly as given).  Used only to state that no cutoff
shift occurs at or before 22:55. -/
def resolveTimeRangeNoCutoff (r : RequestedDate × RequestedDate) (now : LocalTime) :
    LocalTime × LocalTime :=
  let start_resolved := resolveDate r.1 now.date now.date
  let end_resolved := resolveDate r.2 now.date start_resolved
  (lmax ⟨start_resolved, 0⟩ now, ⟨end_resolved + 1, 0⟩)

/-- The cutoff substitution: `Today` becomes `Tomorrow`, everything else is
unchanged. -/
def cutoffShift (d : RequestedDate) : RequestedDate :=
  if d = .today then .tomorrow else d

/-- `wmo_severity` from `src/openmeteo_fetch.rs` (`i32` weather codes). -/
def wmo_severity (code : Int) : Int :=
  if 95 ≤ code ∧ code ≤ 99 then 100
  else if 80 ≤ code ∧ code ≤ 86 then 80
  else if 71 ≤ code ∧ code ≤ 77 then 70
  else if 51 ≤ code ∧ code ≤ 67 then 60
  else if code = 45 ∨ code = 48 then 50
  else if code = 3 then 30
  else if code = 2 then 20
  else if code = 1 then 10
  else 0

/-- `WmoCode::severity` from `src/data.rs` (`u8` weather codes, modelled as
`Nat` values below 256). -/
def wmoCodeSeverity (code : Nat) : Nat :=
  if 95 ≤ code ∧ code ≤ 99 then 100
  else if 80 ≤ code ∧ code ≤ 86 then 80
  else if 71 ≤ code ∧ code ≤ 77 then 70
  else if 51 ≤ code ∧ code ≤ 67 then 60
  else if code = 45 ∨ code = 48 then 50
  else if code = 3 then 30
  else if code = 2 then 20
  else if code = 1 then 10
  else 0

/-- `WeatherPoint`: three independently optional fields.  The code type `κ`
is `Int` for `src/openmeteo_fetch.rs` and `Nat` (a `u8` value) for
`src/data.rs`. -/
structure WPoint (κ : Type) where
  temp : Option ℚ
  precip : Option ℚ
  code : Option κ
deriving DecidableEq

/-- Model of Rust's `Iterator::max_by_key`: the element with the maximal
key; when several elements are equally maximal, the *last* one is returned
(as documented for `max_by_key`). -/
def maxByKey {α β : Type} [LinearOrder β] (key : α → β) : List α → Option α
  | [] => none
  | x :: xs => some (xs.foldl (fun acc y => if key acc ≤ key y then y else acc) x)

/-- The per-bucket aggregation step shared by `Forecast::compress` and
`Forecast::compact`: mean of present temperatures, sum of present
precipitations, most severe present weather code — each `none` when no
sample contributes. -/
def aggregate {κ β : Type} [LinearOrder β] (sev : κ → β) (points : List (WPoint κ)) :
    WPoint κ :=
  let temps := points.filterMap (fun p => p.temp)
  let avg_temp : Option ℚ :=
    if temps = [] then none else some (temps.sum / (temps.length : ℚ))
  let precips := points.filterMap (fun p => p.precip)
  let sum_precip : Option ℚ := if precips = [] then none else some precips.sum
  let most_significant_code := maxByKey sev (points.filterMap (fun p => p.code))
  ⟨avg_temp, sum_precip, most_significant_code⟩

/-- Common body of `Forecast::compress` (`src/openmeteo_fetch.rs`) and
`Forecast::compact` (`src/data.rs`) — the two are textually identical up to
the weather-code type.  A model's series is the timestamp axis zipped with
that model's samples.  Timestamps on `today`'s date pass through unchanged;
otherwise the current element opens a 3-hour bucket `[hour/3*3, hour/3*3+3)`
and the following elements are consumed while they have the same calendar
date and an hour below the bucket end, emitting one aggregated point with
the first timestamp as representative. -/
def compactCore {κ β : Type} [LinearOrder β] (sev : κ → β) (today : Nat) :
    List (Nat × WPoint κ) → List (Nat × WPoint κ)
  | [] => []
  | (t, p) :: rest =>
    if t / 24 = today then
      (t, p) :: compactCore sev today rest
    else
      let bucketEnd := t % 24 / 3 * 3 + 3
      let bucket := rest.takeWhile fun q => decide (q.1 / 24 = t / 24 ∧ q.1 % 24 < bucketEnd)
      (t, aggregate sev (p :: bucket.map Prod.snd)) ::
        compactCore sev today (rest.drop bucket.length)
termination_by l => l.length
decreasing_by
  · simp
  · simp only [List.length_drop, List.length_cons]
    omega

/-- `Forecast::compress` from `src/openmeteo_fetch.rs`, one model's zipped
series. -/
def compress (today : Nat) (l : List (Nat × WPoint Int)) : List (Nat × WPoint Int) :=
  compactCore wmo_severity today l

/-- `Forecast::compact` from `src/data.rs`, one model's zipped series. -/
def compact (today : Nat) (l : List (Nat × WPoint Nat)) : List (Nat × WPoint Nat) :=
  compactCore wmoCodeSeverity today l

/-- The (calendar date, 3-hour bucket index) key of a timestamp. -/
def bkey (t : Nat) : Nat × Nat := (t / 24, t % 24 / 3)

/-- Strict lexicographic order on bucket keys. -/
def keyLt (a b : Nat × Nat) : Prop := a.1 < b.1 ∨ (a.1 = b.1 ∧ a.2 < b.2)

/-- The output axis described by the spec (§4.5), written from its words: in
input order, a timestamp on `today`'s date is always kept; a timestamp on
any other date is kept exactly when it is the first input timestamp of its
(date, 3-hour bucket) group.  `seen` accumulates the bucket keys already
represented. -/
def axisSpec (today : Nat) : List Nat → List (Nat × Nat) → List Nat
  | [], _ => []
  | t :: rest, seen =>
    if t / 24 = today then t :: axisSpec today rest seen
    else if bkey t ∈ seen then axisSpec today rest seen
    else t :: axisSpec today rest (bkey t :: seen)

/-- The tie-break rule as the claim states it, written from its words: the
element with the maximal key, the *first*-occurring one when several are
equally maximal. -/
def firstMaxByKey {α β : Type} [LinearOrder β] (key : α → β) : List α → Option α
  | [] => none
  | x :: xs => some (xs.foldl (fun acc y => if key acc < key y then y else acc) x)

/-- Unfolding lemma for `compactCore` on `[]`. -/
theorem compactCore_nil {κ β : Type} [LinearOrder β] (sev : κ → β) (today : Nat) :
    compactCore sev today [] = [] := by
  rw [compactCore]

/-- Unfolding lemma for `compactCore` on a cons cell. -/
theorem compactCore_cons {κ β : Type} [LinearOrder β] (sev : κ → β) (today : Nat)
    (t : Nat) (p : WPoint κ) (rest : List (Nat × WPoint κ)) :
    compactCore sev today ((t, p) :: rest) =
      if t / 24 = today then
        (t, p) :: compactCore sev today rest
      else
        (t, aggregate sev (p :: (rest.takeWhile fun q =>
            decide (q.1 / 24 = t / 24 ∧ q.1 % 24 < t % 24 / 3 * 3 + 3)).map Prod.snd)) ::
          compactCore sev today
            (rest.drop (rest.takeWhile fun q =>
              decide (q.1 / 24 = t / 24 ∧ q.1 % 24 < t % 24 / 3 * 3 + 3)).length) := by
  rw [compactCore]

/-- Closed form of the weekday search: it advances by the distance (mod 7)
from the start date's weekday to the wanted one. -/
theorem searchWeekday_eq (w : Weekday) (d : Int) :
    searchWeekday w d = d + (w.num - d - 3) % 7 := by
  have hw := w.num_bounds
  generalize hm : ((w.num - d - 3) % 7).toNat = n
  induction n generalizing d with
  | zero =>
    have hmatch : weekdayOf d = w.num := by simp only [weekdayOf]; omega
    rw [searchWeekday, if_pos hmatch]
    omega
  | succ n ih =>
    have hne : ¬ weekdayOf d = w.num := by simp only [weekdayOf]; omega
    rw [searchWeekday, if_neg hne]
    have hstep : ((w.num - (d + 1) - 3) % 7).toNat = n := by omega
    have := ih (d + 1) hstep
    omega

/-- The weekday search starts at the search-start date and never moves more
than six days forward, and it lands on the wanted weekday. -/
theorem searchWeekday_bounds (w : Weekday) (d : Int) :
    d ≤ searchWeekday w d ∧ searchWeekday w d ≤ d + 6 ∧
      weekdayOf (searchWeekday w d) = w.num := by
  have hw := w.num_bounds
  have h := searchWeekday_eq w d
  refine ⟨by omega, by omega, ?_⟩
  simp only [weekdayOf]
  omega

/-- C8: date resolution is total: every specifier resolves to a concrete
date for every reference date and weekday-search-start date, and the
`Weekday` variant's forward search terminates within at most seven days of
the search-start date (landing on the wanted weekday on or after it). -/
theorem resolve_date_total (spec : RequestedDate) (ref ws : Int) :
    (∃ d, resolveDate spec ref ws = d) ∧
      ∀ w : Weekday,
        ws ≤ resolveDate (.weekday w) ref ws ∧
        resolveDate (.weekday w) ref ws ≤ ws + 6 ∧
        weekdayOf (resolveDate (.weekday w) ref ws) = w.num := by
  refine ⟨⟨_, rfl⟩, fun w => ?_⟩
  simpa [resolveDate] using searchWeekday_bounds w ws

/-- C5: resolving a `Weekday(w1) .. Weekday(w2)` range always yields a
resolved end date on or after the resolved start date, and the resulting
half-open interval of `resolve_time_range` (bin implementation, whose lines
the claim cites) has its exclusive end strictly after its clamped start. -/
theorem weekday_range_ordered (w1 w2 : Weekday) (now : LocalTime) :
    resolveDate (.weekday w1) now.date now.date ≤
      resolveDate (.weekday w2) now.date (resolveDate (.weekday w1) now.date now.date) ∧
    (Bin.resolve_time_range (.weekday w1, .weekday w2) now).1.before
      (Bin.resolve_time_range (.weekday w1, .weekday w2) now).2 := by
  have h1 := searchWeekday_bounds w1 now.date
  have h2 := searchWeekday_bounds w2 (searchWeekday w1 now.date)
  constructor
  · simpa [resolveDate] using h2.1
  · simp only [Bin.resolve_time_range, resolveDate, reduceCtorEq, and_false, if_false,
      LocalTime.before, lmax]
    split
    · left
      dsimp only
      omega
    · left
      dsimp only
      omega

/-- `lmax` returns its first argument when the second is strictly earlier in
date. -/
theorem lmax_left (a b : LocalTime) (hb : b.date < a.date) : lmax a b = a := by
  unfold lmax
  rw [if_neg (by omega)]

/-- `lmax` returns its second argument when the first is not later. -/
theorem lmax_right (a b : LocalTime)
    (h : a.date < b.date ∨ (a.date = b.date ∧ a.secs ≤ b.secs)) : lmax a b = b := by
  unfold lmax
  rw [if_pos h]

/-- C1 (amended): strictly after the 22:55 cutoff, the `main.rs` resolver
treats a `Today` specifier on either side as `Tomorrow` (so resolving
"today" then starts at next-day midnight), while the `bin/openmeteo.rs`
resolver substitutes only the *end* specifier — its start-side `Today`
resolves unshifted and is merely clamped to `now`, keeping the current
date.  At or before 22:55 (and with a well-formed time of day) neither
implementation shifts anything. -/
theorem cutoff_shift_behavior (s e : RequestedDate) (now : LocalTime)
    (hpos : 0 ≤ now.secs) :
    (CUTOFF_TIME < now.secs →
        Main.resolve_time_range (s, e) now
            = Main.resolve_time_range (cutoffShift s, cutoffShift e) now
      ∧ Bin.resolve_time_range (s, e) now
            = Bin.resolve_time_range (s, cutoffShift e) now
      ∧ (Main.resolve_time_range (.today, .today) now).1 = ⟨now.date + 1, 0⟩
      ∧ (Bin.resolve_time_range (.today, .today) now).1 = now)
  ∧ (now.secs ≤ CUTOFF_TIME →
        Main.resolve_time_range (s, e) now = resolveTimeRangeNoCutoff (s, e) now
      ∧ Bin.resolve_time_range (s, e) now = resolveTimeRangeNoCutoff (s, e) now
      ∧ (Main.resolve_time_range (.today, .today) now).1 = now) := by
  constructor
  · intro h
    refine ⟨?_, ?_, ?_, ?_⟩
    · by_cases hs : s = .today <;> by_cases he : e = .today <;>
        simp [Main.resolve_time_range, cutoffShift, hs, he, h]
    · by_cases he : e = .today <;>
        simp [Bin.resolve_time_range, cutoffShift, he, h]
    · simp only [Main.resolve_time_range, resolveDate, h, true_and, if_pos]
      exact lmax_left _ _ (by dsimp only; omega)
    · simp only [Bin.resolve_time_range, resolveDate, h, true_and, if_pos]
      exact lmax_right _ _ (by dsimp only; omega)
  · intro h
    have h' : ¬ (CUTOFF_TIME < now.secs) := by omega
    refine ⟨?_, ?_, ?_⟩
    · simp [Main.resolve_time_range, resolveTimeRangeNoCutoff, h']
    · simp [Bin.resolve_time_range, resolveTimeRangeNoCutoff, h']
    · simp only [Main.resolve_time_range, resolveDate, h', false_and, if_neg,
        not_false_iff]
      exact lmax_right _ _ (by dsimp only; omega)

/-- C1 counterexample: 2025-01-15 (a Wednesday) is day 20103; resolving the
range "today" with the `bin/openmeteo.rs` resolver at 22:55:01 (secs 82501)
leaves the start on 2025-01-15 — not on 2025-01-16 (day 20104) as the claim
states, because that implementation shifts only the end specifier. -/
theorem c1_counterexample :
    daysFromCivil 2025 1 15 = 20103 ∧ weekdayOf 20103 = Weekday.wed.num ∧
    (Bin.resolve_time_range (.today, .today) ⟨20103, 82501⟩).1.date = 20103 ∧
    ¬ ((Bin.resolve_time_range (.today, .today) ⟨20103, 82501⟩).1.date
        = daysFromCivil 2025 1 16) := by
  refine ⟨by decide, by decide, by decide, by decide⟩

/-- C1 witness: the amended cutoff behaviour evaluated at reference
Wednesday 2025-01-15 (day 20103), at 22:55:01 and at 22:55:00. -/
theorem c1_witness :
    Main.resolve_time_range (.today, .today) ⟨20103, 82501⟩
        = Main.resolve_time_range (.tomorrow, .tomorrow) ⟨20103, 82501⟩
    ∧ (Main.resolve_time_range (.today, .today) ⟨20103, 82501⟩).1 = ⟨20104, 0⟩
    ∧ (Bin.resolve_time_range (.today, .today) ⟨20103, 82501⟩).1 = ⟨20103, 82501⟩
    ∧ (Main.resolve_time_range (.today, .today) ⟨20103, 82500⟩).1 = ⟨20103, 82500⟩ := by
  have h1 := (cutoff_shift_behavior .today .today ⟨20103, 82501⟩ (by decide)).1 (by decide)
  have h2 := (cutoff_shift_behavior .today .today ⟨20103, 82500⟩ (by decide)).2 (by decide)
  refine ⟨?_, ?_, ?_, ?_⟩
  · simpa [cutoffShift] using h1.1
  · simpa using h1.2.2.1
  · exact h1.2.2.2
  · exact h2.2.2

deriving instance DecidableEq for Except

/-- C9: parsing the bare range `..` with `parse_date_range` from
`src/bin/openmeteo.rs` fails with the distinct malformed-range error
("empty range '..' not allowed"), which is different from the
malformed-token error; the input is not defaulted. -/
theorem empty_range_distinct_error :
    Bin.parse_date_range [ '.', '.' ] = .error .emptyRange
    ∧ Err.emptyRange ≠ Err.malformedToken := by
  refine ⟨by decide, by decide⟩

/-- A successfully parsed weekday token contains no `.` character. -/
theorem parse_weekday_no_dot {s : List Char} {w : Weekday}
    (h : parse_weekday s = some w) : ∀ c ∈ s, c ≠ '.' := by
  unfold parse_weekday at h
  split_ifs at h with h1 h2 h3 h4 h5 h6 h7
  · rcases h1 with rfl | rfl <;> decide
  · rcases h2 with rfl | rfl <;> decide
  · rcases h3 with rfl | rfl <;> decide
  · rcases h4 with rfl | rfl <;> decide
  · rcases h5 with rfl | rfl <;> decide
  · rcases h6 with rfl | rfl <;> decide
  · rcases h7 with rfl | rfl <;> decide

/-- Characters accepted by the `u8` parser: a leading `+` or digits. -/
theorem parseU8_chars {s : List Char} {n : Nat} (h : parseU8 s = some n) :
    ∀ c ∈ s, c = '+' ∨ isDigitCh c := by
  unfold parseU8 at h
  cases s with
  | nil => simp at h
  | cons c rest =>
    by_cases hc : c = '+'
    · subst hc
      simp only [reduceIte] at h
      split_ifs at h
      all_goals intro x hx
      all_goals rcases List.mem_cons.mp hx with rfl | hx
      all_goals first
        | exact Or.inl rfl
        | exact Or.inr (List.all_eq_true.mp (by assumption) x hx)
    · simp only [if_neg hc] at h
      split_ifs at h
      all_goals intro x hx
      all_goals exact Or.inr (List.all_eq_true.mp (by assumption) x hx)

/-- `takeDigits` splits its input into a digit prefix and the remainder. -/
theorem takeDigits_spec (s : List Char) :
    (takeDigits s).1 ++ (takeDigits s).2 = s ∧ ∀ c ∈ (takeDigits s).1, isDigitCh c := by
  induction s with
  | nil => simp [takeDigits]
  | cons c rest ih =>
    by_cases hc : isDigitCh c
    · simp only [takeDigits, if_pos hc]
      refine ⟨by simpa using ih.1, ?_⟩
      intro x hx
      rcases List.mem_cons.mp hx with rfl | hx
      · exact hc
      · exact ih.2 x hx
    · simp [takeDigits, hc]

/-- On an all-digit string `takeDigits` consumes everything. -/
theorem takeDigits_all {s : List Char} (h : ∀ c ∈ s, isDigitCh c) :
    takeDigits s = (s, []) := by
  induction s with
  | nil => rfl
  | cons c rest ih =>
    simp [takeDigits, h c (by simp), ih (fun x hx => h x (by simp [hx]))]

/-- A successful `read2Digits` consumed a digit-only prefix. -/
theorem read2Digits_chars {s : List Char} {v : Nat} {rest : List Char}
    (h : read2Digits s = some (v, rest)) :
    ∃ pre, s = pre ++ rest ∧ ∀ c ∈ pre, isDigitCh c := by
  cases s with
  | nil => simp [read2Digits] at h
  | cons c1 tl =>
    cases tl with
    | nil =>
      simp only [read2Digits] at h
      split_ifs at h with hd
      cases h
      exact ⟨[c1], by simp, by simpa using hd⟩
    | cons c2 tl2 =>
      simp only [read2Digits] at h
      split_ifs at h with h1 h2
      · cases h
        exact ⟨[c1, c2], by simp, by
          intro x hx
          rcases List.mem_cons.mp hx with rfl | hx
          · exact h1
          · rcases List.mem_cons.mp hx with rfl | hx
            · exact h2
            · simp at hx⟩
      · cases h
        exact ⟨[c1], by simp, by simpa using h1⟩

/-- A string accepted by `parseYmdBody` consists of digits and dashes. -/
theorem parseYmdBody_chars {sign : Int} {t : List Char} {d : Int}
    (h : parseYmdBody sign t = some d) :
    ∀ c ∈ t, isDigitCh c ∨ c = '-' := by
  unfold parseYmdBody at h
  split at h
  · exact absurd h (by simp)
  · rename_i p yds s2 hne heq
    obtain ⟨hsplit, hdig⟩ := takeDigits_spec t
    rw [heq] at hsplit hdig
    dsimp only at hsplit hdig
    split at h
    · rename_i s3
      split at h
      · exact absurd h (by simp)
      · rename_i m s4 heq2
        obtain ⟨pre1, hs3, hpre1⟩ := read2Digits_chars heq2
        split at h
        · rename_i s5
          split at h
          · exact absurd h (by simp)
          · rename_i d2 s6 heq3
            obtain ⟨pre2, hs5, hpre2⟩ := read2Digits_chars heq3
            split_ifs at h with h6
            subst h6
            intro c hc
            rw [← hsplit] at hc
            rcases List.mem_append.mp hc with hc | hc
            · exact Or.inl (hdig c hc)
            · rcases List.mem_cons.mp hc with rfl | hc
              · exact Or.inr rfl
              · rw [hs3] at hc
                rcases List.mem_append.mp hc with hc | hc
                · exact Or.inl (hpre1 c hc)
                · rcases List.mem_cons.mp hc with rfl | hc
                  · exact Or.inr rfl
                  · rw [hs5] at hc
                    simp only [List.append_nil] at hc
                    exact Or.inl (hpre2 c hc)
        · exact absurd h (by simp)
    · exact absurd h (by simp)

/-- On a nonempty all-digit string, `parseYmdBody` fails (the dash after the
year digits is missing). -/
theorem parseYmdBody_all_digits {sign : Int} {x : Char} {xs : List Char}
    (h : ∀ c ∈ x :: xs, isDigitCh c) : parseYmdBody sign (x :: xs) = none := by
  unfold parseYmdBody
  rw [takeDigits_all h]

/-- A string accepted by `parseYmd` consists of a sign character and the
digits/dashes of its body. -/
theorem parseYmd_chars {s : List Char} {d : Int} (h : parseYmd s = some d) :
    ∀ c ∈ s, c = '+' ∨ c = '-' ∨ isDigitCh c := by
  unfold parseYmd at h
  cases s with
  | nil => intro c hc; simp at hc
  | cons c0 r =>
    dsimp only at h
    split_ifs at h with hm hp
    · intro c hc
      rcases List.mem_cons.mp hc with rfl | hc
      · exact Or.inr (Or.inl hm)
      · rcases parseYmdBody_chars h c hc with hd | hd
        · exact Or.inr (Or.inr hd)
        · exact Or.inr (Or.inl hd)
    · intro c hc
      rcases List.mem_cons.mp hc with rfl | hc
      · exact Or.inl hp
      · rcases parseYmdBody_chars h c hc with hd | hd
        · exact Or.inr (Or.inr hd)
        · exact Or.inr (Or.inl hd)
    · intro c hc
      rcases parseYmdBody_chars h c hc with hd | hd
      · exact Or.inr (Or.inr hd)
      · exact Or.inr (Or.inl hd)

/-- `strip_prefix('+')` succeeds exactly on strings starting with `+`. -/
theorem stripPlus_eq_some {s r : List Char} (h : stripPlus s = some r) :
    s = '+' :: r := by
  cases s with
  | nil => simp [stripPlus] at h
  | cons c rest =>
    unfold stripPlus at h
    dsimp only at h
    split_ifs at h with hc
    cases h
    rw [hc]

/-- Any token accepted by `parse_date` contains no `.` character (used to
locate the `..` separator of range expressions). -/
theorem parse_date_no_dot {X : List Char} {d : RequestedDate}
    (h : parse_date X = .ok d) : ∀ c ∈ X, c ≠ '.' := by
  intro c hc hcc
  subst hcc
  have hmem : '.' ∈ X.map lowerAscii := by
    have h1 := List.mem_map_of_mem lowerAscii hc
    have h2 : lowerAscii '.' = '.' := by decide
    rwa [h2] at h1
  unfold parse_date at h
  dsimp only at h
  split_ifs at h with h1 h2
  · rw [h1] at hmem
    exact absurd hmem (by decide)
  · rw [h2] at hmem
    exact absurd hmem (by decide)
  · split at h
    · rename_i w hw
      exact parse_weekday_no_dot hw _ hmem rfl
    · split at h
      · rename_i n hn
        rcases Option.bind_eq_some.mp hn with ⟨r, hr, hpn⟩
        rw [stripPlus_eq_some hr] at hmem
        rcases List.mem_cons.mp hmem with hdot | hdot
        · exact absurd hdot (by decide)
        · rcases parseU8_chars hpn _ hdot with hbad | hbad
          · exact absurd hbad (by decide)
          · exact absurd hbad (by decide)
      · split at h
        · rename_i dd hd2
          rcases parseYmd_chars hd2 _ hmem with hbad | hbad | hbad
          · exact absurd hbad (by decide)
          · exact absurd hbad (by decide)
          · exact absurd hbad (by decide)
        · exact absurd h (by simp)

/-- `splitOnce` splits at a `..` separator following a dot-free prefix. -/
theorem splitOnce_sep (X : List Char) (r : List Char) (hX : ∀ c ∈ X, c ≠ '.') :
    splitOnce (X ++ '.' :: '.' :: r) = some (X, r) := by
  induction X with
  | nil =>
    simp only [List.nil_append]
    unfold splitOnce
    rw [if_pos ⟨rfl, rfl⟩]
    rfl
  | cons c X' ih =>
    have hc : c ≠ '.' := hX c (by simp)
    simp only [List.cons_append]
    unfold splitOnce
    rw [if_neg (fun hcon => hc hcon.1)]
    rw [ih (fun x hx => hX x (by simp [hx]))]
    rfl

/-- The empty token is rejected by `parse_date`. -/
theorem parse_date_nil : parse_date [] = .error .malformedToken := by rfl

/-- The literal `today` parses to `Today`. -/
theorem parse_date_today :
    parse_date ('t' :: 'o' :: 'd' :: 'a' :: 'y' :: []) = .ok .today := by rfl

/-- The literal `+16` parses to `RelativeDays 16`. -/
theorem parse_date_plus16 :
    parse_date ('+' :: '1' :: '6' :: []) = .ok (.relativeDays 16) := by rfl

/-- C4 (amended): for every valid date token `X`, the range parser of
`src/bin/openmeteo.rs` applies side-specific defaults: `..X` parses like
`today..X` (empty left side defaults to `Today`) and `X..` parses like
`X..+16` (empty right side defaults to `RelativeDays 16`, the maximum
forecast horizon).  The range parser of `src/main.rs`, by contrast, has no
empty-side defaults and rejects both `..X` and `X..` with the
malformed-token error. -/
theorem range_defaults (X : List Char) (d : RequestedDate)
    (h : parse_date X = .ok d) :
    Bin.parse_date_range ('.' :: '.' :: X)
        = Bin.parse_date_range ("today".toList ++ '.' :: '.' :: X)
    ∧ Bin.parse_date_range ('.' :: '.' :: X) = .ok (.today, d)
    ∧ Bin.parse_date_range (X ++ [ '.', '.' ])
        = Bin.parse_date_range (X ++ "..+16".toList)
    ∧ Bin.parse_date_range (X ++ [ '.', '.' ])
        = .ok (d, .relativeDays MAX_FORECAST_DAYS)
    ∧ Main.parse_date_range ('.' :: '.' :: X) = .error .malformedToken
    ∧ Main.parse_date_range (X ++ [ '.', '.' ]) = .error .malformedToken := by
  have hnd := parse_date_no_dot h
  obtain ⟨x, xs, rfl⟩ : ∃ x xs, X = x :: xs := by
    cases X with
    | nil => rw [parse_date_nil] at h; exact absurd h (by simp)
    | cons x xs => exact ⟨x, xs, rfl⟩
  have s1 : splitOnce ('.' :: '.' :: (x :: xs)) = some ([], x :: xs) :=
    splitOnce_sep [] (x :: xs) (by simp)
  have s2 : splitOnce ("today".toList ++ '.' :: '.' :: (x :: xs))
      = some ("today".toList, x :: xs) :=
    splitOnce_sep _ _ (by decide)
  have s3 : splitOnce ((x :: xs) ++ [ '.', '.' ]) = some (x :: xs, []) :=
    splitOnce_sep (x :: xs) [] hnd
  have s4 : splitOnce ((x :: xs) ++ "..+16".toList) = some (x :: xs, "+16".toList) :=
    splitOnce_sep (x :: xs) "+16".toList hnd
  have b1 : Bin.parse_date_range ('.' :: '.' :: (x :: xs)) = .ok (.today, d) := by
    rw [Bin.parse_date_range, s1]
    simp [parse_date_or, h, Bind.bind, Except.bind, Pure.pure, Except.pure, MAX_FORECAST_DAYS]
  have b2 : Bin.parse_date_range ("today".toList ++ '.' :: '.' :: (x :: xs))
      = .ok (.today, d) := by
    rw [Bin.parse_date_range, s2]
    simp [parse_date_or, h, parse_date_today, Bind.bind, Except.bind, Pure.pure, Except.pure, MAX_FORECAST_DAYS]
  have b3 : Bin.parse_date_range ((x :: xs) ++ [ '.', '.' ])
      = .ok (d, .relativeDays MAX_FORECAST_DAYS) := by
    rw [Bin.parse_date_range, s3]
    simp [parse_date_or, h, Bind.bind, Except.bind, Pure.pure, Except.pure, MAX_FORECAST_DAYS]
  have b4 : Bin.parse_date_range ((x :: xs) ++ "..+16".toList)
      = .ok (d, .relativeDays MAX_FORECAST_DAYS) := by
    rw [Bin.parse_date_range, s4]
    simp [parse_date_or, h, parse_date_plus16, Bind.bind, Except.bind, Pure.pure, Except.pure, MAX_FORECAST_DAYS, Functor.map, Except.map]
  have m1 : Main.parse_date_range ('.' :: '.' :: (x :: xs)) = .error .malformedToken := by
    rw [Main.parse_date_range, s1]
    simp [parse_date_nil, Bind.bind, Except.bind, Pure.pure, Except.pure, MAX_FORECAST_DAYS]
  have m2 : Main.parse_date_range ((x :: xs) ++ [ '.', '.' ]) = .error .malformedToken := by
    rw [Main.parse_date_range, s3]
    simp [parse_date_nil, h, Bind.bind, Except.bind, Pure.pure, Except.pure, MAX_FORECAST_DAYS, Functor.map, Except.map]
  exact ⟨b1.trans b2.symm, b1, b3.trans b4.symm, b3, m1, m2⟩

/-- C4 counterexample: in `src/main.rs`, `..fri` fails to parse while
`today..fri` succeeds, so the claimed equality between the two fails there
(the claim holds only for the parser of `src/bin/openmeteo.rs`). -/
theorem range_defaults_counterexample :
    Main.parse_date_range "..fri".toList = .error .malformedToken
    ∧ Main.parse_date_range "today..fri".toList = .ok (.today, .weekday .fri) := by
  exact ⟨rfl, rfl⟩

/-- C4 witness: the bin-side defaults evaluated at the valid token `fri`. -/
theorem range_defaults_witness :
    Bin.parse_date_range "..fri".toList = Bin.parse_date_range "today..fri".toList
    ∧ Bin.parse_date_range "fri..".toList = Bin.parse_date_range "fri..+16".toList := by
  have h := range_defaults "fri".toList (.weekday .fri) (by rfl)
  exact ⟨h.1, h.2.2.1⟩

/-- Lowercasing fixes ASCII digits. -/
theorem lowerAscii_digit {c : Char} (h : isDigitCh c) : lowerAscii c = c := by
  unfold lowerAscii
  rw [if_neg]
  intro hab
  unfold isDigitCh at h
  rw [decide_eq_true_eq] at h
  exact absurd (le_trans hab.1 h.2) (by decide)

/-- Mapping a pointwise-fixed function over a list is the identity. -/
theorem map_lowerAscii_fixed {s : List Char} (h : ∀ c ∈ s, lowerAscii c = c) :
    s.map lowerAscii = s := by
  induction s with
  | nil => rfl
  | cons c r ih => simp [h c (by simp), ih (fun x hx => h x (by simp [hx]))]

/-- A token made of `+` and digits is not a weekday name. -/
theorem parse_weekday_none {s : List Char}
    (hch : ∀ c ∈ s, c = '+' ∨ isDigitCh c) : parse_weekday s = none := by
  unfold parse_weekday
  split_ifs with h1 h2 h3 h4 h5 h6 h7
  · rcases h1 with rfl | rfl <;> exact absurd (hch 'm' (by decide)) (by decide)
  · rcases h2 with rfl | rfl <;> exact absurd (hch 't' (by decide)) (by decide)
  · rcases h3 with rfl | rfl <;> exact absurd (hch 'w' (by decide)) (by decide)
  · rcases h4 with rfl | rfl <;> exact absurd (hch 't' (by decide)) (by decide)
  · rcases h5 with rfl | rfl <;> exact absurd (hch 'f' (by decide)) (by decide)
  · rcases h6 with rfl | rfl <;> exact absurd (hch 's' (by decide)) (by decide)
  · rcases h7 with rfl | rfl <;> exact absurd (hch 's' (by decide)) (by decide)
  · rfl

/-- C7 (amended): a token `+ds` with nonempty digit string `ds` parses to
`RelativeDays (value ds)` exactly when the value fits the `u8` range
`0..=255`; a value above 255 makes the whole token a parse failure.  The
maximum forecast horizon (16) is *not* enforced by the parser. -/
theorem plus_token_parse (ds : List Char) (h1 : ds ≠ [])
    (h2 : ∀ c ∈ ds, isDigitCh c) :
    (digitsVal ds ≤ 255 →
        parse_date ('+' :: ds) = .ok (.relativeDays (digitsVal ds)))
    ∧ (255 < digitsVal ds → parse_date ('+' :: ds) = .error .malformedToken) := by
  obtain ⟨x, xs, rfl⟩ : ∃ x xs, ds = x :: xs := by
    cases ds with
    | nil => exact absurd rfl h1
    | cons x xs => exact ⟨x, xs, rfl⟩
  have hlow : ('+' :: x :: xs).map lowerAscii = '+' :: x :: xs :=
    map_lowerAscii_fixed (by
      intro c hc
      rcases List.mem_cons.mp hc with rfl | hc
      · decide
      · exact lowerAscii_digit (h2 c hc))
  have hwd : parse_weekday ('+' :: x :: xs) = none :=
    parse_weekday_none (by
      intro c hc
      rcases List.mem_cons.mp hc with rfl | hc
      · exact Or.inl rfl
      · exact Or.inr (h2 c hc))
  have hx : ¬ x = '+' := by
    intro heq
    have hd := h2 x (by simp)
    rw [heq] at hd
    exact absurd hd (by decide)
  have ht1 : ¬ (('+' :: x :: xs : List Char) = "today".toList) := by
    intro heq
    injection heq with hh _
    exact absurd hh (by decide)
  have ht2 : ¬ (('+' :: x :: xs : List Char) = "tomorrow".toList) := by
    intro heq
    injection heq with hh _
    exact absurd hh (by decide)
  constructor
  · intro hle
    have hp8 : parseU8 (x :: xs) = some (digitsVal (x :: xs)) := by
      unfold parseU8
      dsimp only
      rw [if_neg hx, if_neg (by simp), if_pos (List.all_eq_true.mpr h2), if_pos hle]
    unfold parse_date
    dsimp only
    rw [hlow, if_neg ht1, if_neg ht2, hwd]
    have hsb : (stripPlus ('+' :: x :: xs)).bind parseU8
        = some (digitsVal (x :: xs)) := by
      rw [show stripPlus ('+' :: x :: xs) = some (x :: xs) from rfl]
      simpa using hp8
    rw [hsb]
  · intro hgt
    have hp8 : parseU8 (x :: xs) = none := by
      unfold parseU8
      dsimp only
      rw [if_neg hx, if_neg (by simp), if_pos (List.all_eq_true.mpr h2),
        if_neg (by omega)]
    have hymd : parseYmd ('+' :: x :: xs) = none := by
      unfold parseYmd
      dsimp only
      rw [if_neg (by decide), if_pos rfl]
      exact parseYmdBody_all_digits h2
    unfold parse_date
    dsimp only
    rw [hlow, if_neg ht1, if_neg ht2, hwd]
    have hsb : (stripPlus ('+' :: x :: xs)).bind parseU8 = none := by
      rw [show stripPlus ('+' :: x :: xs) = some (x :: xs) from rfl]
      simpa using hp8
    rw [hsb, hymd]

/-- C7 counterexample: `+17` parses successfully to `RelativeDays 17`
although 17 exceeds the claimed upper bound `MAX_FORECAST_DAYS` (16). -/
theorem plus_token_counterexample :
    parse_date ('+' :: '1' :: '7' :: []) = .ok (.relativeDays 17)
    ∧ ¬ (17 ≤ MAX_FORECAST_DAYS) := by
  exact ⟨rfl, by decide⟩

/-- C7 witness: the amended bound evaluated at `+17` (accepted, value 17)
and `+256` (rejected, 256 exceeds the `u8` range). -/
theorem plus_token_witness :
    parse_date ('+' :: '1' :: '7' :: [])
        = .ok (.relativeDays (digitsVal ('1' :: '7' :: [])))
    ∧ parse_date ('+' :: '2' :: '5' :: '6' :: []) = .error .malformedToken := by
  refine ⟨(plus_token_parse ('1' :: '7' :: []) (by simp) (by decide)).1 (by decide),
    (plus_token_parse ('2' :: '5' :: '6' :: []) (by simp) (by decide)).2 (by decide)⟩

/-- `maxByKey` returns `none` exactly on the empty list. -/
theorem maxByKey_eq_none {α β : Type} [LinearOrder β] (key : α → β) (l : List α) :
    maxByKey key l = none ↔ l = [] := by
  cases l <;> simp [maxByKey]

/-- Per-field absence propagation of the bucket aggregation: each aggregated
field is `none` exactly when that field is `none` in every contributing
sample. -/
theorem aggregate_absent {κ β : Type} [LinearOrder β] (sev : κ → β)
    (ps : List (WPoint κ)) :
    ((aggregate sev ps).temp = none ↔ ∀ p ∈ ps, p.temp = none)
    ∧ ((aggregate sev ps).precip = none ↔ ∀ p ∈ ps, p.precip = none)
    ∧ ((aggregate sev ps).code = none ↔ ∀ p ∈ ps, p.code = none) := by
  unfold aggregate
  dsimp only
  refine ⟨?_, ?_, ?_⟩
  · constructor
    · intro h
      split_ifs at h with hnil
      exact fun p hp => List.filterMap_eq_nil_iff.mp hnil p hp
    · intro h
      rw [if_pos (List.filterMap_eq_nil_iff.mpr h)]
  · constructor
    · intro h
      split_ifs at h with hnil
      exact fun p hp => List.filterMap_eq_nil_iff.mp hnil p hp
    · intro h
      rw [if_pos (List.filterMap_eq_nil_iff.mpr h)]
  · rw [maxByKey_eq_none, List.filterMap_eq_nil_iff]

/-- C6: for both compaction implementations, an aggregated field
(temperature mean, precipitation sum, weather code) is absent exactly when
every contributing sample's field is absent; a single present value makes
the aggregate present. -/
theorem absent_field_propagation (ps : List (WPoint Int)) (qs : List (WPoint Nat)) :
    (((aggregate wmo_severity ps).temp = none ↔ ∀ p ∈ ps, p.temp = none)
      ∧ ((aggregate wmo_severity ps).precip = none ↔ ∀ p ∈ ps, p.precip = none)
      ∧ ((aggregate wmo_severity ps).code = none ↔ ∀ p ∈ ps, p.code = none))
    ∧ (((aggregate wmoCodeSeverity qs).temp = none ↔ ∀ p ∈ qs, p.temp = none)
      ∧ ((aggregate wmoCodeSeverity qs).precip = none ↔ ∀ p ∈ qs, p.precip = none)
      ∧ ((aggregate wmoCodeSeverity qs).code = none ↔ ∀ p ∈ qs, p.code = none)) :=
  ⟨aggregate_absent wmo_severity ps, aggregate_absent wmoCodeSeverity qs⟩

/-- On a nonempty list, `maxByKey` returns an element with maximal key, and
among equally-maximal elements the last one: everything after the returned
element has a strictly smaller key. -/
theorem maxByKey_spec {α β : Type} [LinearOrder β] (key : α → β) (x : α) (xs : List α) :
    ∃ m, maxByKey key (x :: xs) = some m ∧ m ∈ x :: xs
      ∧ (∀ y ∈ x :: xs, key y ≤ key m)
      ∧ ∃ l1 l2, x :: xs = l1 ++ m :: l2 ∧ ∀ y ∈ l2, key y < key m := by
  induction xs generalizing x with
  | nil =>
    exact ⟨x, rfl, by simp, by simp, [], [], by simp, by simp⟩
  | cons y ys ih =>
    have hfold : maxByKey key (x :: y :: ys)
        = maxByKey key ((if key x ≤ key y then y else x) :: ys) := rfl
    obtain ⟨m, hm, hmem, hmax, l1, l2, hsplit, hlast⟩ :=
      ih (if key x ≤ key y then y else x)
    have hheadmax : key (if key x ≤ key y then y else x) ≤ key m :=
      hmax _ (by simp)
    refine ⟨m, hfold.trans hm, ?_, ?_, ?_⟩
    · rcases List.mem_cons.mp hmem with rfl | hmm
      · split <;> simp
      · exact List.mem_cons_of_mem _ (List.mem_cons_of_mem _ hmm)
    · intro z hz
      rcases List.mem_cons.mp hz with hzx | hz
      · rw [hzx]
        by_cases hxy : key x ≤ key y
        · rw [if_pos hxy] at hheadmax
          exact le_trans hxy hheadmax
        · rw [if_neg hxy] at hheadmax
          exact hheadmax
      · rcases List.mem_cons.mp hz with hzy | hz
        · rw [hzy]
          by_cases hxy : key x ≤ key y
          · rw [if_pos hxy] at hheadmax
            exact hheadmax
          · rw [if_neg hxy] at hheadmax
            exact le_trans (le_of_lt (lt_of_not_le hxy)) hheadmax
        · exact hmax z (List.mem_cons_of_mem _ hz)
    · by_cases hxy : key x ≤ key y
      · rw [if_pos hxy] at hsplit
        exact ⟨x :: l1, l2, by rw [List.cons_append, ← hsplit], hlast⟩
      · rw [if_neg hxy] at hsplit
        cases l1 with
        | nil =>
          simp only [List.nil_append] at hsplit
          have hx : x = m := (List.cons.injEq _ _ _ _).mp hsplit |>.1
          have hys : ys = l2 := (List.cons.injEq _ _ _ _).mp hsplit |>.2
          refine ⟨[], y :: ys, by simp [hx], ?_⟩
          intro z hz
          rcases List.mem_cons.mp hz with rfl | hz
          · rw [← hx]
            exact lt_of_not_le hxy
          · rw [hys] at hz
            exact hlast z hz
        | cons b l1' =>
          have hx : x = b := (List.cons.injEq _ _ _ _).mp hsplit |>.1
          have hys : ys = l1' ++ m :: l2 := (List.cons.injEq _ _ _ _).mp hsplit |>.2
          exact ⟨x :: y :: l1', l2, by rw [List.cons_append, List.cons_append, ← hys], hlast⟩

/-- The full specification of the aggregated weather code: absent iff no
sample has a present code; otherwise a present code of maximal severity,
and specifically the last present code attaining that severity. -/
theorem aggregate_code_spec {κ β : Type} [LinearOrder β] (sev : κ → β)
    (ps : List (WPoint κ)) :
    ((aggregate sev ps).code = none ↔ ∀ p ∈ ps, p.code = none)
    ∧ ∀ c, (aggregate sev ps).code = some c →
        c ∈ ps.filterMap (fun p => p.code)
        ∧ (∀ e ∈ ps.filterMap (fun p => p.code), sev e ≤ sev c)
        ∧ ∃ l1 l2, ps.filterMap (fun p => p.code) = l1 ++ c :: l2
            ∧ ∀ e ∈ l2, sev e < sev c := by
  refine ⟨(aggregate_absent sev ps).2.2, ?_⟩
  intro c hc
  have hc' : maxByKey sev (ps.filterMap fun p => p.code) = some c := hc
  cases hcs : ps.filterMap fun p => p.code with
  | nil =>
    rw [hcs] at hc'
    simp [maxByKey] at hc'
  | cons z zs =>
    rw [hcs] at hc'
    obtain ⟨m, hm, hmem, hmax, l1, l2, hsplit, hlast⟩ := maxByKey_spec sev z zs
    rw [hm] at hc'
    obtain rfl : m = c := Option.some.inj hc'
    exact ⟨hmem, hmax, l1, l2, hsplit, hlast⟩

/-- C3 (amended): during compaction the output weather code is absent iff
no sample in the bucket has a present code, and otherwise it is a present
code of maximal severity rank — with ties broken by the *last* occurrence
in iteration order (`max_by_key` keeps the last maximal element), not the
first. -/
theorem code_severity_tiebreak (ps : List (WPoint Int)) (qs : List (WPoint Nat)) :
    (((aggregate wmo_severity ps).code = none ↔ ∀ p ∈ ps, p.code = none)
      ∧ ∀ c, (aggregate wmo_severity ps).code = some c →
          c ∈ ps.filterMap (fun p => p.code)
          ∧ (∀ e ∈ ps.filterMap (fun p => p.code), wmo_severity e ≤ wmo_severity c)
          ∧ ∃ l1 l2, ps.filterMap (fun p => p.code) = l1 ++ c :: l2
              ∧ ∀ e ∈ l2, wmo_severity e < wmo_severity c)
    ∧ (((aggregate wmoCodeSeverity qs).code = none ↔ ∀ p ∈ qs, p.code = none)
      ∧ ∀ c, (aggregate wmoCodeSeverity qs).code = some c →
          c ∈ qs.filterMap (fun p => p.code)
          ∧ (∀ e ∈ qs.filterMap (fun p => p.code),
              wmoCodeSeverity e ≤ wmoCodeSeverity c)
          ∧ ∃ l1 l2, qs.filterMap (fun p => p.code) = l1 ++ c :: l2
              ∧ ∀ e ∈ l2, wmoCodeSeverity e < wmoCodeSeverity c) :=
  ⟨aggregate_code_spec wmo_severity ps, aggregate_code_spec wmoCodeSeverity qs⟩

/-- Evaluation of `compress` on a single two-sample 3-hour bucket of a
non-today date. -/
theorem compress_two_eval (a b : WPoint Int) :
    compress 0 [(24, a), (25, b)] = [(24, aggregate wmo_severity [a, b])] := by
  unfold compress
  rw [compactCore_cons]
  norm_num [List.takeWhile, compactCore_nil]

/-- C3 counterexample: a bucket whose samples carry codes 95 then 96 (both
severity 100) aggregates to code 96 — the *last* maximal code — while the
claimed first-occurrence tie-break would give 95. -/
theorem code_tiebreak_counterexample :
    (compress 0 [(24, ⟨none, none, some 95⟩), (25, ⟨none, none, some 96⟩)]).map
        (fun q => q.2.code) = [some 96]
    ∧ firstMaxByKey wmo_severity (95 :: 96 :: []) = some 95
    ∧ wmo_severity 95 = wmo_severity 96
    ∧ (96 : Int) ≠ 95 := by
  refine ⟨?_, by rfl, by decide, by decide⟩
  rw [compress_two_eval]
  rfl

/-- C3 witness: the amended tie-break rule applied to the concrete bucket
with codes 95 and 96: result 96 is present, maximal, and last among the
maximal codes. -/
theorem code_tiebreak_witness :
    (96 : Int) ∈ List.filterMap (fun p => p.code)
        [(⟨none, none, some 95⟩ : WPoint Int), ⟨none, none, some 96⟩]
    ∧ (∀ e ∈ List.filterMap (fun p => p.code)
        [(⟨none, none, some 95⟩ : WPoint Int), ⟨none, none, some 96⟩],
        wmo_severity e ≤ wmo_severity 96)
    ∧ ∃ l1 l2, List.filterMap (fun p => p.code)
        [(⟨none, none, some 95⟩ : WPoint Int), ⟨none, none, some 96⟩]
          = l1 ++ (96 : Int) :: l2
        ∧ ∀ e ∈ l2, wmo_severity e < wmo_severity 96 :=
  (code_severity_tiebreak
      [⟨none, none, some 95⟩, ⟨none, none, some 96⟩] []).1.2 96 (by rfl)


/-- The identification of `u8` weather codes (and the `WeatherPoint` of
`src/data.rs`) with their `i32` images (the `WeatherPoint` of
`src/openmeteo_fetch.rs`). -/
def toI32Point (p : WPoint Nat) : WPoint Int :=
  ⟨p.temp, p.precip, p.code.map (fun n : Nat => (n : Int))⟩

/-- The two severity functions agree through the `u8 → i32` embedding. -/
theorem sev_agree (n : Nat) : wmo_severity (n : Int) = (wmoCodeSeverity n : Int) := by
  unfold wmo_severity wmoCodeSeverity
  by_cases h1 : 95 ≤ n ∧ n ≤ 99
  · rw [if_pos h1, if_pos (show (95:Int) ≤ (n:Int) ∧ (n:Int) ≤ 99 by omega)]
    omega
  · rw [if_neg h1, if_neg (show ¬((95:Int) ≤ (n:Int) ∧ (n:Int) ≤ 99) by omega)]
    by_cases h2 : 80 ≤ n ∧ n ≤ 86
    · rw [if_pos h2, if_pos (show (80:Int) ≤ (n:Int) ∧ (n:Int) ≤ 86 by omega)]
      omega
    · rw [if_neg h2, if_neg (show ¬((80:Int) ≤ (n:Int) ∧ (n:Int) ≤ 86) by omega)]
      by_cases h3 : 71 ≤ n ∧ n ≤ 77
      · rw [if_pos h3, if_pos (show (71:Int) ≤ (n:Int) ∧ (n:Int) ≤ 77 by omega)]
        omega
      · rw [if_neg h3, if_neg (show ¬((71:Int) ≤ (n:Int) ∧ (n:Int) ≤ 77) by omega)]
        by_cases h4 : 51 ≤ n ∧ n ≤ 67
        · rw [if_pos h4, if_pos (show (51:Int) ≤ (n:Int) ∧ (n:Int) ≤ 67 by omega)]
          omega
        · rw [if_neg h4, if_neg (show ¬((51:Int) ≤ (n:Int) ∧ (n:Int) ≤ 67) by omega)]
          by_cases h5 : n = 45 ∨ n = 48
          · rw [if_pos h5, if_pos (show (n:Int) = 45 ∨ (n:Int) = 48 by omega)]
            omega
          · rw [if_neg h5, if_neg (show ¬((n:Int) = 45 ∨ (n:Int) = 48) by omega)]
            by_cases h6 : n = 3
            · rw [if_pos h6, if_pos (show (n:Int) = 3 by omega)]
              omega
            · rw [if_neg h6, if_neg (show ¬((n:Int) = 3) by omega)]
              by_cases h7 : n = 2
              · rw [if_pos h7, if_pos (show (n:Int) = 2 by omega)]
                omega
              · rw [if_neg h7, if_neg (show ¬((n:Int) = 2) by omega)]
                by_cases h8 : n = 1
                · rw [if_pos h8, if_pos (show (n:Int) = 1 by omega)]
                  omega
                · rw [if_neg h8, if_neg (show ¬((n:Int) = 1) by omega)]
                  omega

/-- `max_by_key` commutes with the `u8 → i32` embedding of codes. -/
theorem maxByKey_map (cs : List Nat) :
    maxByKey wmo_severity (cs.map (fun n : Nat => (n : Int)))
      = (maxByKey wmoCodeSeverity cs).map (fun n : Nat => (n : Int)) := by
  cases cs with
  | nil => rfl
  | cons x xs =>
    have hfold : ∀ (ys : List Nat) (a : Nat),
        (ys.map (fun n : Nat => (n : Int))).foldl
            (fun acc y => if wmo_severity acc ≤ wmo_severity y then y else acc)
            ((a : Nat) : Int)
          = ((ys.foldl
              (fun acc y => if wmoCodeSeverity acc ≤ wmoCodeSeverity y then y else acc)
                a : Nat) : Int) := by
      intro ys
      induction ys with
      | nil => intro a; rfl
      | cons y ys ih =>
        intro a
        simp only [List.map_cons, List.foldl_cons]
        rw [show (if wmo_severity ((a : Nat) : Int) ≤ wmo_severity ((y : Nat) : Int)
              then ((y : Nat) : Int) else ((a : Nat) : Int))
            = (((if wmoCodeSeverity a ≤ wmoCodeSeverity y then y else a : Nat)) : Int) by
          rw [sev_agree, sev_agree, apply_ite (fun n : Nat => (n : Int)),
            if_congr Nat.cast_le rfl rfl]]
        exact ih _
    simp only [maxByKey, List.map_cons, Option.map_some']
    rw [hfold]

/-- The per-bucket aggregation commutes with the code embedding. -/
theorem aggregate_toInt (ps : List (WPoint Nat)) :
    aggregate wmo_severity (ps.map toI32Point)
      = toI32Point (aggregate wmoCodeSeverity ps) := by
  have htemp : (ps.map toI32Point).filterMap (fun p => p.temp)
      = ps.filterMap (fun p => p.temp) := by
    rw [List.filterMap_map]
    rfl
  have hprecip : (ps.map toI32Point).filterMap (fun p => p.precip)
      = ps.filterMap (fun p => p.precip) := by
    rw [List.filterMap_map]
    rfl
  have hcode : (ps.map toI32Point).filterMap (fun p => p.code)
      = (ps.filterMap (fun p => p.code)).map (fun n : Nat => (n : Int)) := by
    rw [List.filterMap_map, List.map_filterMap]
    rfl
  unfold aggregate
  dsimp only
  rw [htemp, hprecip, hcode, maxByKey_map]
  rfl

/-- `compactCore` commutes with the code embedding: the common compaction
body yields the same axis and corresponding samples whether codes are `u8`
values or their `i32` images. -/
theorem compactCore_toInt (today : Nat) (l : List (Nat × WPoint Nat)) :
    compactCore wmo_severity today (l.map fun q => (q.1, toI32Point q.2))
      = (compactCore wmoCodeSeverity today l).map fun q => (q.1, toI32Point q.2) := by
  suffices H : ∀ (n : Nat) (l : List (Nat × WPoint Nat)), l.length ≤ n →
      compactCore wmo_severity today (l.map fun q => (q.1, toI32Point q.2))
        = (compactCore wmoCodeSeverity today l).map fun q => (q.1, toI32Point q.2) by
    exact H l.length l le_rfl
  intro n
  induction n with
  | zero =>
    intro l hl
    rw [List.length_eq_zero.mp (Nat.le_zero.mp hl)]
    rw [List.map_nil, compactCore_nil, compactCore_nil, List.map_nil]
  | succ n ih =>
    intro l hl
    cases l with
    | nil => rw [List.map_nil, compactCore_nil, compactCore_nil, List.map_nil]
    | cons hd rest =>
      obtain ⟨t, p⟩ := hd
      simp only [List.map_cons]
      rw [compactCore_cons, compactCore_cons]
      by_cases ht : t / 24 = today
      · rw [if_pos ht, if_pos ht, List.map_cons,
          ih rest (by simpa using Nat.le_of_succ_le_succ hl)]
      · rw [if_neg ht, if_neg ht]
        have hbucket : ((rest.map fun q => (q.1, toI32Point q.2)).takeWhile fun q =>
              decide (q.1 / 24 = t / 24 ∧ q.1 % 24 < t % 24 / 3 * 3 + 3))
            = ((rest.takeWhile fun q =>
                decide (q.1 / 24 = t / 24 ∧ q.1 % 24 < t % 24 / 3 * 3 + 3)).map
                  fun q => (q.1, toI32Point q.2)) := by
          rw [List.takeWhile_map]
          rfl
        rw [hbucket, List.length_map, List.map_cons]
        congr 1
        · congr 1
          rw [List.map_map,
            show Prod.snd ∘ (fun q : Nat × WPoint Nat => (q.1, toI32Point q.2))
              = toI32Point ∘ Prod.snd from rfl,
            ← List.map_map, ← List.map_cons, aggregate_toInt]
        · rw [← List.map_drop]
          refine ih _ (le_trans ?_ (Nat.le_of_succ_le_succ hl))
          simp [List.length_drop]

/-- C10: the two compaction implementations are equivalent.  For every
forecast series (axis zipped with samples), `Forecast::compress` on the
`i32` image of the data equals the `i32` image of `Forecast::compact` on
the `u8` data — identical output timestamp axes and identical output
samples under the code identification. -/
theorem compress_compact_equiv (today : Nat) (l : List (Nat × WPoint Nat)) :
    compress today (l.map fun q => (q.1, toI32Point q.2))
      = (compact today l).map fun q => (q.1, toI32Point q.2) :=
  compactCore_toInt today l

/-- Dropping as many elements as `takeWhile` keeps is `dropWhile`. -/
theorem drop_length_takeWhile {α : Type} (p : α → Bool) (l : List α) :
    l.drop (l.takeWhile p).length = l.dropWhile p := by
  induction l with
  | nil => rfl
  | cons x xs ih =>
    by_cases hx : p x
    · rw [List.takeWhile_cons_of_pos hx, List.dropWhile_cons_of_pos hx,
        List.length_cons, List.drop_succ_cons]
      exact ih
    · rw [List.takeWhile_cons_of_neg hx, List.dropWhile_cons_of_neg hx]
      rfl

/-- The spec axis skips a leading block of non-today timestamps whose
bucket keys have already been seen. -/
theorem axisSpec_skip (today : Nat) (es : List Nat) :
    ∀ (tail : List Nat) (seen : List (Nat × Nat)),
      (∀ t ∈ es, t / 24 ≠ today ∧ bkey t ∈ seen) →
      axisSpec today (es ++ tail) seen = axisSpec today tail seen := by
  induction es with
  | nil =>
    intro tail seen _
    rfl
  | cons e es ih =>
    intro tail seen h
    rw [List.cons_append]
    show axisSpec today (e :: (es ++ tail)) seen = _
    simp only [axisSpec]
    rw [if_neg (h e (by simp)).1, if_pos (h e (by simp)).2]
    exact ih tail seen (fun t ht => h t (by simp [ht]))

/-- Today's rows pass through compaction unchanged: filtering the compacted
series to today's date gives exactly the input filtered to today's date. -/
theorem compactCore_filter_today {κ β : Type} [LinearOrder β] (sev : κ → β)
    (today : Nat) (l : List (Nat × WPoint κ)) :
    (compactCore sev today l).filter (fun q => decide (q.1 / 24 = today))
      = l.filter (fun q => decide (q.1 / 24 = today)) := by
  suffices H : ∀ (n : Nat) (l : List (Nat × WPoint κ)), l.length ≤ n →
      (compactCore sev today l).filter (fun q => decide (q.1 / 24 = today))
        = l.filter (fun q => decide (q.1 / 24 = today)) by
    exact H l.length l le_rfl
  intro n
  induction n with
  | zero =>
    intro l hl
    rw [List.length_eq_zero.mp (Nat.le_zero.mp hl), compactCore_nil]
  | succ n ih =>
    intro l hl
    cases l with
    | nil => rw [compactCore_nil]
    | cons hd rest =>
      obtain ⟨t, p⟩ := hd
      rw [compactCore_cons]
      by_cases ht : t / 24 = today
      · rw [if_pos ht, List.filter_cons, List.filter_cons, if_pos (by simp [ht]),
          if_pos (by simp [ht]), ih rest (by simp at hl; omega)]
      · rw [if_neg ht, List.filter_cons, List.filter_cons, if_neg (by simp [ht]),
          if_neg (by simp [ht])]
        have hsplitrest : rest = (rest.takeWhile fun q =>
              decide (q.1 / 24 = t / 24 ∧ q.1 % 24 < t % 24 / 3 * 3 + 3))
            ++ rest.drop (rest.takeWhile fun q =>
              decide (q.1 / 24 = t / 24 ∧ q.1 % 24 < t % 24 / 3 * 3 + 3)).length := by
          rw [drop_length_takeWhile, List.takeWhile_append_dropWhile]
        conv_rhs => rw [hsplitrest]
        rw [List.filter_append]
        rw [show ((rest.takeWhile fun q =>
              decide (q.1 / 24 = t / 24 ∧ q.1 % 24 < t % 24 / 3 * 3 + 3)).filter
                fun q => decide (q.1 / 24 = today)) = [] from ?_]
        · rw [List.nil_append]
          refine ih _ (le_trans ?_ (show rest.length ≤ n by simp at hl; omega))
          rw [List.length_drop]
          omega
        · rw [List.filter_eq_nil_iff]
          intro q hq
          have hpred := List.mem_takeWhile_imp hq
          simp only [decide_eq_true_eq] at hpred ⊢
          rw [hpred.1]
          exact ht

/-- Main axis characterization: on a strictly increasing timestamp axis,
the compacted axis is exactly the spec's axis — today's timestamps all
kept, every other timestamp kept iff it is the first of its (date, 3-hour
bucket) group.  `seen` carries keys strictly below every upcoming
non-today key. -/
theorem compactCore_axis {κ β : Type} [LinearOrder β] (sev : κ → β) (today : Nat) :
    ∀ (n : Nat) (l : List (Nat × WPoint κ)) (seen : List (Nat × Nat)),
      l.length ≤ n →
      (l.map Prod.fst).Pairwise (· < ·) →
      (∀ k ∈ seen, ∀ q ∈ l, q.1 / 24 ≠ today → keyLt k (bkey q.1)) →
      (compactCore sev today l).map Prod.fst = axisSpec today (l.map Prod.fst) seen := by
  intro n
  induction n with
  | zero =>
    intro l seen hl _ _
    rw [List.length_eq_zero.mp (Nat.le_zero.mp hl), compactCore_nil]
    rfl
  | succ n ih =>
    intro l seen hl hmono hinv
    cases l with
    | nil =>
      rw [compactCore_nil]
      rfl
    | cons hd rest =>
      obtain ⟨t, p⟩ := hd
      rw [compactCore_cons, List.map_cons] at *
      have hmono' : (rest.map Prod.fst).Pairwise (· < ·) := hmono.of_cons
      have hheadlt : ∀ q ∈ rest, t < q.1 := fun q hq =>
        (List.pairwise_cons.mp hmono).1 q.1 (List.mem_map_of_mem Prod.fst hq)
      by_cases ht : t / 24 = today
      · rw [if_pos ht, List.map_cons]
        show _ = axisSpec today (t :: rest.map Prod.fst) seen
        simp only [axisSpec]
        rw [if_pos ht]
        congr 1
        exact ih rest seen (by simp at hl; omega) hmono'
          (fun k hk q hq hqt => hinv k hk q (List.mem_cons_of_mem _ hq) hqt)
      · rw [if_neg ht, List.map_cons]
        show _ = axisSpec today (t :: rest.map Prod.fst) seen
        simp only [axisSpec]
        rw [if_neg ht]
        have hnotin : bkey t ∉ seen := by
          intro hin
          have hlt := hinv (bkey t) hin (t, p) (by simp) ht
          simp only [keyLt] at hlt
          omega
        rw [if_neg hnotin]
        congr 1
        have hsplitrest : rest = (rest.takeWhile fun q =>
              decide (q.1 / 24 = t / 24 ∧ q.1 % 24 < t % 24 / 3 * 3 + 3))
            ++ rest.drop (rest.takeWhile fun q =>
              decide (q.1 / 24 = t / 24 ∧ q.1 % 24 < t % 24 / 3 * 3 + 3)).length := by
          rw [drop_length_takeWhile, List.takeWhile_append_dropWhile]
        conv_rhs => rw [hsplitrest]
        rw [List.map_append, axisSpec_skip today _ _ _ ?_]
        · refine ih _ (bkey t :: seen) ?_ ?_ ?_
          · rw [List.length_drop]
            simp at hl
            omega
          · exact hmono'.sublist ((List.drop_sublist _ _).map Prod.fst)
          · intro k hk q hq hqt
            rcases List.mem_cons.mp hk with rfl | hk
            · rw [drop_length_takeWhile] at hq
              cases hdw : rest.dropWhile (fun q =>
                  decide (q.1 / 24 = t / 24 ∧ q.1 % 24 < t % 24 / 3 * 3 + 3)) with
              | nil =>
                rw [hdw] at hq
                simp at hq
              | cons f fs =>
                rw [hdw] at hq
                have hfail : ¬ (f.1 / 24 = t / 24 ∧ f.1 % 24 < t % 24 / 3 * 3 + 3) := by
                  have hh := List.head?_dropWhile_not (fun q =>
                    decide (q.1 / 24 = t / 24 ∧ q.1 % 24 < t % 24 / 3 * 3 + 3)) rest
                  rw [hdw] at hh
                  simpa using hh
                have hsubdw : List.Sublist (rest.dropWhile fun q =>
                    decide (q.1 / 24 = t / 24 ∧ q.1 % 24 < t % 24 / 3 * 3 + 3))
                      rest := List.dropWhile_sublist _
                rw [hdw] at hsubdw
                have htf : t < f.1 := hheadlt f (hsubdw.subset (by simp))
                have hkf : keyLt (bkey t) (bkey f.1) := by
                  simp only [keyLt, bkey]
                  omega
                rcases List.mem_cons.mp hq with rfl | hq
                · exact hkf
                · have hmdw : ((f :: fs).map Prod.fst).Pairwise (· < ·) :=
                    hmono'.sublist (hsubdw.map Prod.fst)
                  have hfq : f.1 < q.1 :=
                    (List.pairwise_cons.mp (by rw [List.map_cons] at hmdw; exact hmdw)).1
                      q.1 (List.mem_map_of_mem Prod.fst hq)
                  simp only [keyLt, bkey] at hkf ⊢
                  omega
            · exact hinv k hk q
                (List.mem_cons_of_mem _ ((List.drop_sublist _ _).subset hq)) hqt
        · intro u hu
          obtain ⟨q, hq, rfl⟩ := List.mem_map.mp hu
          have hp := List.mem_takeWhile_imp hq
          simp only [decide_eq_true_eq] at hp
          have hqrest : q ∈ rest := by
            rw [hsplitrest]
            exact List.mem_append_left _ hq
          have htq : t < q.1 := hheadlt q hqrest
          refine ⟨by rw [hp.1]; exact ht, ?_⟩
          have hbk : bkey q.1 = bkey t := by
            simp only [bkey, Prod.mk.injEq]
            constructor <;> omega
          rw [hbk]
          exact List.mem_cons_self _ _

/-- C2: on a strictly increasing timestamp axis, compaction (both
implementations) produces, in input order, every today timestamp with its
sample copied through unchanged, and for every other date exactly one
output point per non-empty fixed 3-hour bucket, represented by the bucket's
first input timestamp — stated via the spec-side `axisSpec` and the
today-filter preservation. -/
theorem compaction_axis (today : Nat)
    (lz : List (Nat × WPoint Int)) (ln : List (Nat × WPoint Nat))
    (hz : (lz.map Prod.fst).Pairwise (· < ·))
    (hn : (ln.map Prod.fst).Pairwise (· < ·)) :
    ((compress today lz).map Prod.fst = axisSpec today (lz.map Prod.fst) []
      ∧ (compress today lz).filter (fun q => decide (q.1 / 24 = today))
          = lz.filter (fun q => decide (q.1 / 24 = today)))
    ∧ ((compact today ln).map Prod.fst = axisSpec today (ln.map Prod.fst) []
      ∧ (compact today ln).filter (fun q => decide (q.1 / 24 = today))
          = ln.filter (fun q => decide (q.1 / 24 = today))) := by
  refine ⟨⟨?_, compactCore_filter_today _ _ _⟩, ?_, compactCore_filter_today _ _ _⟩
  · exact compactCore_axis wmo_severity today lz.length lz [] le_rfl hz (by simp)
  · exact compactCore_axis wmoCodeSeverity today ln.length ln [] le_rfl hn (by simp)

/-- C2 witness: the axis characterization applied to a concrete increasing
hourly axis spanning a today block (day 1) and a later day's buckets. -/
theorem compaction_axis_witness :
    (compress 1 [(24, ⟨some 10, some 0, some 0⟩), (25, ⟨some 12, some 1, some 61⟩),
        (48, ⟨some 1, none, none⟩), (49, ⟨some 3, some 2, some 3⟩),
        (51, ⟨none, some 1, some 95⟩)]).map Prod.fst
      = axisSpec 1 ([(24, (⟨some 10, some 0, some 0⟩ : WPoint Int)),
          (25, ⟨some 12, some 1, some 61⟩), (48, ⟨some 1, none, none⟩),
          (49, ⟨some 3, some 2, some 3⟩), (51, ⟨none, some 1, some 95⟩)].map Prod.fst) []
    ∧ (compact 1 [(24, ⟨some 10, some 0, some 0⟩), (25, ⟨some 12, some 1, some 61⟩),
        (48, ⟨some 1, none, none⟩), (49, ⟨some 3, some 2, some 3⟩),
        (51, ⟨none, some 1, some 95⟩)]).map Prod.fst
      = axisSpec 1 ([(24, (⟨some 10, some 0, some 0⟩ : WPoint Nat)),
          (25, ⟨some 12, some 1, some 61⟩), (48, ⟨some 1, none, none⟩),
          (49, ⟨some 3, some 2, some 3⟩), (51, ⟨none, some 1, some 95⟩)].map Prod.fst) [] :=
  ⟨(compaction_axis 1
      [(24, ⟨some 10, some 0, some 0⟩), (25, ⟨some 12, some 1, some 61⟩),
        (48, ⟨some 1, none, none⟩), (49, ⟨some 3, some 2, some 3⟩),
        (51, ⟨none, some 1, some 95⟩)]
      [(24, ⟨some 10, some 0, some 0⟩), (25, ⟨some 12, some 1, some 61⟩),
        (48, ⟨some 1, none, none⟩), (49, ⟨some 3, some 2, some 3⟩),
        (51, ⟨none, some 1, some 95⟩)]
      (by decide) (by decide)).1.1,
    (compaction_axis 1
      [(24, ⟨some 10, some 0, some 0⟩), (25, ⟨some 12, some 1, some 61⟩),
        (48, ⟨some 1, none, none⟩), (49, ⟨some 3, some 2, some 3⟩),
        (51, ⟨none, some 1, some 95⟩)]
      [(24, ⟨some 10, some 0, some 0⟩), (25, ⟨some 12, some 1, some 61⟩),
        (48, ⟨some 1, none, none⟩), (49, ⟨some 3, some 2, some 3⟩),
        (51, ⟨none, some 1, some 95⟩)]
      (by decide) (by decide)).2.1⟩
